import Mathlib

/-!
# Verification of the kvkit codec / query-synchronization layer

A shallow embedding of the `@kvkit/codecs` and `@kvkit/query` packages.

Modelling conventions:
* A TypeScript `Record<string, string>` (a "StringMap") is modelled as an
  association list `List (String × String)` in insertion order; JS object
  assignment `o[k] = v` is `objSet` (updates the value in place for an
  existing key, appends otherwise).
* `URLSearchParams` is modelled as its ordered entry list
  `List (String × String)`; `params.set` is `paramsSet` (replaces the first
  occurrence, deletes later ones, appends when absent), `params.toString()`
  is `serializeParams` (application/x-www-form-urlencoded over UTF-8 bytes),
  and the string constructor is `parseParams`.
* JSON values are modelled by the inductive `JsonValue`; numbers are
  modelled as integers (the claims only exercise integral numbers), and
  string escaping covers `"` and `\` (the well-formedness predicate
  `wfJson` restricts strings to characters ≥ 0x20, where this is exactly
  `JSON.stringify`'s behaviour). `stringifyJson` models `JSON.stringify`
  and `parseJson` models `JSON.parse` on canonical (whitespace-free) JSON
  texts, returning `none` where `JSON.parse` throws.
* The ambient browser context is `Option Location`: `none` models
  `typeof window === 'undefined'`; `Location` carries the pre-query part of
  the URL (`base`), `location.search` (with its leading `?`, or empty) and
  `location.hash` (with its leading `#`, or empty).
* History mutations are reified into the `HistEffect` type instead of being
  performed; codecs are total functions, per the data-model invariant that
  `decode` is total and never raises.
-/

/-! ## Characters and basic string helpers -/

/-- Decimal digit test, as in the JSON number grammar. -/
def isDigitC (c : Char) : Bool := 48 ≤ c.toNat && c.toNat ≤ 57

/-- Numeric value of a decimal digit character. -/
def digitVal (c : Char) : Nat := c.toNat - 48

/-- The character for a decimal digit. -/
def digitChar10 (d : Nat) : Char := Char.ofNat (48 + d)

/-- JS `s.slice(1)` (drop the first UTF-16 unit; BMP-faithful). -/
def jsSlice1 (s : String) : String := ⟨s.data.drop 1⟩

/-- Everything strictly before the first occurrence of `sep`; the whole
list when `sep` is absent (JS `s.slice(0, s.indexOf(sep))` resp. `s`). -/
def beforeChar (sep : Char) (cs : List Char) : List Char :=
  cs.takeWhile (· ≠ sep)

/-- Everything strictly after the first occurrence of `sep`; empty when
`sep` is absent (JS `s.slice(s.indexOf(sep) + 1)` resp. `''`). -/
def afterChar (sep : Char) (cs : List Char) : List Char :=
  match cs.dropWhile (· ≠ sep) with
  | [] => []
  | _ :: t => t

/-- The portion of the hash body before its first `?` (the hash-routing
"path"): mirrors `queryIndex >= 0 ? hash.slice(0, queryIndex) : hash`. -/
def beforeFirstQ (s : String) : String := ⟨beforeChar '?' s.data⟩

/-- The portion of the hash body after its first `?` (the hash-routing
parameter string): mirrors `queryIndex >= 0 ? hash.slice(queryIndex + 1) : ''`. -/
def afterFirstQ (s : String) : String := ⟨afterChar '?' s.data⟩

/-- JS `String.prototype.split` with a one-character separator. -/
def splitCharList (sep : Char) : List Char → List (List Char)
  | [] => [[]]
  | c :: rest =>
    let r := splitCharList sep rest
    if c = sep then [] :: r
    else
      match r with
      | [] => [[c]]
      | h :: t => (c :: h) :: t

/-! ## Association-list operations (JS objects and URLSearchParams) -/

/-- JS object assignment `o[k] = v`: update in place if the key exists,
append otherwise. -/
def objSet {α : Type} : List (String × α) → String → α → List (String × α)
  | [], k, v => [(k, v)]
  | (k', v') :: rest, k, v =>
    if k' = k then (k', v) :: rest else (k', v') :: objSet rest k v

/-- Remove every entry with the given key. -/
def removeKey {α : Type} : List (String × α) → String → List (String × α)
  | [], _ => []
  | (k', v') :: rest, k =>
    if k' = k then removeKey rest k else (k', v') :: removeKey rest k

/-- `URLSearchParams.prototype.set`: replace the value at the first
occurrence of the key and delete later occurrences, or append. -/
def paramsSet : List (String × String) → String → String → List (String × String)
  | [], k, v => [(k, v)]
  | (k', v') :: rest, k, v =>
    if k' = k then (k', v) :: removeKey rest k
    else (k', v') :: paramsSet rest k v

/-! ## The String-Map ⇄ URL-Parameter bridge (src/packages/query/src/index.ts) -/

/-- `urlSearchParamsToStringMap`: iterate the entries, assigning each into
a fresh object (`result[key] = value`), so duplicates collapse to the last
value. -/
def urlSearchParamsToStringMap (ps : List (String × String)) : List (String × String) :=
  ps.foldl (fun m kv => objSet m kv.1 kv.2) []

/-- `stringMapToURLSearchParams`: `params.set(key, value)` for each entry
whose value is neither `undefined` nor `null` (nullish values are modelled
as `none`). -/
def stringMapToURLSearchParams (m : List (String × Option String)) : List (String × String) :=
  m.foldl
    (fun ps kv =>
      match kv.2 with
      | some v => paramsSet ps kv.1 v
      | none => ps)
    []

/-- View a map of genuine strings as input for `stringMapToURLSearchParams`. -/
def someVals (m : List (String × String)) : List (String × Option String) :=
  m.map (fun kv => (kv.1, some kv.2))

/-! ## URLSearchParams serialization and parsing -/

/-- UTF-8 bytes of a code point. -/
def utf8Bytes (n : Nat) : List Nat :=
  if n < 128 then [n]
  else if n < 2048 then [192 + n / 64, 128 + n % 64]
  else if n < 65536 then [224 + n / 4096, 128 + (n / 64) % 64, 128 + n % 64]
  else [240 + n / 262144, 128 + (n / 4096) % 64, 128 + (n / 64) % 64, 128 + n % 64]

/-- Uppercase hexadecimal digit. -/
def hexDigitU (n : Nat) : Char :=
  if n < 10 then Char.ofNat (48 + n) else Char.ofNat (55 + n)

/-- Characters the form-urlencoded serializer leaves unescaped. -/
def isUnreservedC (c : Char) : Bool :=
  ('A' ≤ c && c ≤ 'Z') || ('a' ≤ c && c ≤ 'z') || ('0' ≤ c && c ≤ '9') ||
  c = '*' || c = '-' || c = '.' || c = '_'

/-- Form-urlencoded escaping of one character. -/
def urlEncChar (c : Char) : List Char :=
  if isUnreservedC c then [c]
  else if c = ' ' then ['+']
  else (utf8Bytes c.toNat).foldr
    (fun b acc => '%' :: hexDigitU (b / 16) :: hexDigitU (b % 16) :: acc) []

/-- Form-urlencoded escaping of a whole string. -/
def urlEncode (s : String) : String := ⟨(s.data.map urlEncChar).flatten⟩

/-- `URLSearchParams.prototype.toString`. -/
def serializeParams (ps : List (String × String)) : String :=
  ⟨List.intercalate ['&']
    (ps.map fun kv => (urlEncode kv.1).data ++ '=' :: (urlEncode kv.2).data)⟩

/-- Value of a hexadecimal digit character, if any. -/
def hexVal (c : Char) : Option Nat :=
  if 48 ≤ c.toNat && c.toNat ≤ 57 then some (c.toNat - 48)
  else if 65 ≤ c.toNat && c.toNat ≤ 70 then some (c.toNat - 55)
  else if 97 ≤ c.toNat && c.toNat ≤ 102 then some (c.toNat - 87)
  else none

/-- Percent-decoding of one form-urlencoded component (`+` becomes a space,
`%XX` a code unit; ASCII-faithful). -/
def decodeCompChars : List Char → List Char
  | [] => []
  | '+' :: rest => ' ' :: decodeCompChars rest
  | '%' :: h1 :: h2 :: rest =>
    match hexVal h1, hexVal h2 with
    | some a, some b => Char.ofNat (16 * a + b) :: decodeCompChars rest
    | _, _ => '%' :: decodeCompChars (h1 :: h2 :: rest)
  | c :: rest => c :: decodeCompChars rest

/-- The `URLSearchParams(string)` constructor: strip one leading `?`,
split on `&`, ignore empty segments, split each segment at its first `=`
(missing `=` means an empty value), percent-decode both components. -/
def parseParams (s : String) : List (String × String) :=
  let cs :=
    match s.data with
    | '?' :: t => t
    | l => l
  ((splitCharList '&' cs).filter (· ≠ [])).map fun piece =>
    let k := piece.takeWhile (· ≠ '=')
    let v :=
      match piece.dropWhile (· ≠ '=') with
      | [] => []
      | _ :: t => t
    (⟨decodeCompChars k⟩, ⟨decodeCompChars v⟩)

/-! ## JSON values (the model of the JS value space and JSON.stringify / JSON.parse) -/

/-- Fuel-indexed digit extraction; `fuel > n` always suffices because the
argument is divided by ten at every step. -/
def toDigitsAux : Nat → Nat → List Nat
  | 0, _ => []
  | fuel + 1, n => if n < 10 then [n] else toDigitsAux fuel (n / 10) ++ [n % 10]

/-- Most-significant-digit-first decimal digits of a natural number. -/
def toDigitsMSB (n : Nat) : List Nat := toDigitsAux (n + 1) n

/-- Decimal characters of a natural number (`n.toString()` in JS). -/
def natChars (n : Nat) : List Char := (toDigitsMSB n).map digitChar10

/-- Decimal characters of an integer (`i.toString()` in JS). -/
def intChars (i : Int) : List Char :=
  if i < 0 then '-' :: natChars i.natAbs else natChars i.toNat

/-- Numeric value of a most-significant-first digit-character list. -/
def digitsToNat (ds : List Char) : Nat :=
  ds.foldl (fun a c => a * 10 + digitVal c) 0

/-- JSON-safe JS values. Numbers are modelled as integers. -/
inductive JsonValue where
  | null
  | bool (b : Bool)
  | num (n : Int)
  | str (s : String)
  | arr (elems : List JsonValue)
  | obj (fields : List (String × JsonValue))

/-- An object-shaped JS value (the `T extends Record<string, any>` bound of
`flatCodec` / `prefixCodec`). -/
abbrev JObj := List (String × JsonValue)

/-- JSON string escaping of one character (`"` and `\`; the
well-formedness predicate excludes control characters, for which
`JSON.stringify` would emit further escapes). -/
def escChar (c : Char) : List Char :=
  if c = '"' then ['\\', '"'] else if c = '\\' then ['\\', '\\'] else [c]

/-- JSON string escaping of a character list. -/
def escapeChars (cs : List Char) : List Char := (cs.map escChar).flatten

mutual

/-- Characters of `JSON.stringify` of a value. -/
def jsonChars : JsonValue → List Char
  | .null => "null".data
  | .bool b => if b then "true".data else "false".data
  | .num i => intChars i
  | .str s => '"' :: escapeChars s.data ++ ['"']
  | .arr l => '[' :: arrChars l ++ [']']
  | .obj l => '{' :: objChars l ++ ['}']

/-- Comma-joined element texts of an array body. -/
def arrChars : List JsonValue → List Char
  | [] => []
  | v :: t => jsonChars v ++ arrTail t

/-- Continuation of an array body after the first element. -/
def arrTail : List JsonValue → List Char
  | [] => []
  | v :: t => ',' :: (jsonChars v ++ arrTail t)

/-- Comma-joined field texts of an object body. -/
def objChars : List (String × JsonValue) → List Char
  | [] => []
  | f :: t => fieldChars f ++ objTail t

/-- Continuation of an object body after the first field. -/
def objTail : List (String × JsonValue) → List Char
  | [] => []
  | f :: t => ',' :: (fieldChars f ++ objTail t)

/-- The text of one object field, `"key":value`. -/
def fieldChars : String × JsonValue → List Char
  | (k, v) => '"' :: escapeChars k.data ++ '"' :: ':' :: jsonChars v

end

/-- `JSON.stringify`. -/
def stringifyJson (v : JsonValue) : String := ⟨jsonChars v⟩

/-- Characters at and above 0x20 (those `JSON.stringify` never escapes
beyond `"` and `\`). -/
def wfChar (c : Char) : Bool := 32 ≤ c.toNat

/-- Strings within the model's escaping scope. -/
def wfStr (s : String) : Bool := s.data.all wfChar

/-- Key uniqueness of an association list (JS objects cannot carry
duplicate keys). -/
def nodupKeysB {α : Type} : List (String × α) → Bool
  | [] => true
  | (k, _) :: t => !(t.any (fun kv => kv.1 = k)) && nodupKeysB t

mutual

/-- Well-formed JSON values: strings are escape-representable and object
keys are unique, at every level. -/
def wfJson : JsonValue → Bool
  | .null => true
  | .bool _ => true
  | .num _ => true
  | .str s => wfStr s
  | .arr l => wfArr l
  | .obj l => nodupKeysB l && wfFields l

/-- `wfJson` on every element. -/
def wfArr : List JsonValue → Bool
  | [] => true
  | v :: t => wfJson v && wfArr t

/-- `wfJson` on every field, with well-formed keys. -/
def wfFields : List (String × JsonValue) → Bool
  | [] => true
  | (k, v) :: t => wfStr k && wfJson v && wfFields t

end

/-- Parse a JSON string body (after the opening quote) up to its closing
quote, undoing the model's escapes. -/
def parseStrBody : List Char → Option (List Char × List Char)
  | [] => none
  | c :: rest =>
    if c = '\\' then
      match rest with
      | [] => none
      | c2 :: rest2 =>
        if c2 = '"' ∨ c2 = '\\' then (parseStrBody rest2).map (fun p => (c2 :: p.1, p.2))
        else none
    else if c = '"' then some ([], rest)
    else (parseStrBody rest).map (fun p => (c :: p.1, p.2))

/-- Parse a JSON natural-number literal (greedy digits, no leading zero). -/
def parseNatC (cs : List Char) : Option (Nat × List Char) :=
  let ds := cs.takeWhile isDigitC
  if ds = [] then none
  else if ds.head? = some '0' ∧ ds.length ≠ 1 then none
  else some (digitsToNat ds, cs.dropWhile isDigitC)

/-- Match an expected literal continuation. -/
def expectChars : List Char → List Char → Option (List Char)
  | [], rest => some rest
  | _ :: _, [] => none
  | e :: es, c :: rest => if c = e then expectChars es rest else none

mutual

/-- Fuel-indexed JSON value parser over canonical (whitespace-free) texts;
`none` models a `JSON.parse` syntax error. -/
def parseVal : Nat → List Char → Option (JsonValue × List Char)
  | 0, _ => none
  | _ + 1, [] => none
  | fuel + 1, c :: cs =>
    if c = 'n' then (expectChars ['u', 'l', 'l'] cs).map (fun r => (.null, r))
    else if c = 't' then (expectChars ['r', 'u', 'e'] cs).map (fun r => (.bool true, r))
    else if c = 'f' then (expectChars ['a', 'l', 's', 'e'] cs).map (fun r => (.bool false, r))
    else if c = '"' then (parseStrBody cs).map (fun p => (.str ⟨p.1⟩, p.2))
    else if c = '-' then (parseNatC cs).map (fun p => (.num (-(p.1 : Int)), p.2))
    else if c = '[' then
      if cs.head? = some ']' then some (.arr [], cs.tail)
      else
        match parseElems fuel cs with
        | some (l, ']' :: r) => some (.arr l, r)
        | _ => none
    else if c = '{' then
      if cs.head? = some '}' then some (.obj [], cs.tail)
      else
        match parseFields fuel cs with
        | some (l, '}' :: r) => some (.obj l, r)
        | _ => none
    else if isDigitC c then (parseNatC (c :: cs)).map (fun p => (.num (p.1 : Int), p.2))
    else none

/-- Parse one or more comma-separated array elements. -/
def parseElems : Nat → List Char → Option (List JsonValue × List Char)
  | 0, _ => none
  | fuel + 1, cs =>
    match parseVal fuel cs with
    | some (v, rest) =>
      if rest.head? = some ',' then
        match parseElems fuel rest.tail with
        | some (l, r) => some (v :: l, r)
        | none => none
      else some ([v], rest)
    | none => none

/-- Parse one or more comma-separated object fields. -/
def parseFields : Nat → List Char → Option (List (String × JsonValue) × List Char)
  | 0, _ => none
  | fuel + 1, cs =>
    match cs with
    | [] => none
    | c :: rest =>
      if c = '"' then
        match parseStrBody rest with
        | some (k, rest2) =>
          if rest2.head? = some ':' then
            match parseVal fuel rest2.tail with
            | some (v, rest3) =>
              if rest3.head? = some ',' then
                match parseFields fuel rest3.tail with
                | some (l, r) => some ((⟨k⟩, v) :: l, r)
                | none => none
              else some ([(⟨k⟩, v)], rest3)
            | none => none
          else none
        | none => none
      else none

end

/-- JSON whitespace. -/
def isWsC (c : Char) : Bool := c = ' ' || c = '\t' || c = '\n' || c = '\r'

/-- `JSON.parse`, as a total function returning `none` where it throws. -/
def parseJson (s : String) : Option JsonValue :=
  match parseVal (s.data.length + 1) (s.data.dropWhile isWsC) with
  | some (v, rest) => if rest.dropWhile isWsC = [] then some v else none
  | none => none

/-- The `try { JSON.parse(value) } catch { value }` idiom of the flat and
namespaced codecs. -/
def parseOrRaw (s : String) : JsonValue := (parseJson s).getD (.str s)

/-! ## Codec interface and URL-sync data model -/

/-- The `Codec<T>` interface from `@kvkit/codecs`. Both operations are
total, per the data-model invariant that `decode` never raises. -/
structure Codec (α : Type) where
  encode : α → List (String × String)
  decode : List (String × String) → α

/-! ## @kvkit/codecs: the concrete codec strategies -/

/-- `valueCodec(serialize, deserialize, key = 'value')`. The decode side is
`deserialize(data[key] || '')`: a missing key and an empty entry both reach
`deserialize` as the empty string. -/
def valueCodec {α : Type} (serialize : α → String) (deserialize : String → α)
    (key : String := "value") : Codec α where
  encode := fun v => [(key, serialize v)]
  decode := fun data => deserialize ((List.lookup key data).getD "")

/-- `stringCodec`: identity serialization; `deserialize` is `v => v || ''`. -/
def stringCodec (key : String := "value") : Codec String :=
  valueCodec (fun v => v) (fun v => if v = "" then "" else v) key

/-- `JSON.stringify` of a natural number. -/
def natStr (n : Nat) : String := ⟨natChars n⟩

/-- `i.toString()` of an integer. -/
def intStr (i : Int) : String := ⟨intChars i⟩

/-- The value of an all-digit character list, `none` when empty or when a
non-digit follows. -/
def digitsOnly (cs : List Char) : Option Nat :=
  let ds := cs.takeWhile isDigitC
  if ds = [] then none
  else if cs.dropWhile isDigitC = [] then some (digitsToNat ds)
  else none

/-- JS `Number(string)` restricted to the model's integer number space:
`some` on an optionally signed digit string, `none` where JS yields `NaN`
(or a non-integral value, outside the model). -/
def jsNumber (s : String) : Option Int :=
  match s.data with
  | [] => none
  | c :: rest =>
    if c = '-' then (digitsOnly rest).map (fun n => -(Int.ofNat n))
    else (digitsOnly (c :: rest)).map (fun n => Int.ofNat n)

/-- `numberCodec`: `v.toString()` out, `Number(v) || 0` back (`NaN` and `0`
both collapse to `0`). -/
def numberCodec (key : String := "value") : Codec Int :=
  valueCodec intStr (fun v => (jsNumber v).getD 0) key

/-- `booleanCodec`: `v.toString()` out, `v === 'true'` back. -/
def booleanCodec (key : String := "value") : Codec Bool :=
  valueCodec (fun v => if v then "true" else "false") (fun v => v == "true") key

/-- `v.join(',')`. -/
def joinComma (l : List String) : String :=
  ⟨List.intercalate [','] (l.map (·.data))⟩

/-- `v.split(',')`. -/
def splitComma (s : String) : List String :=
  (splitCharList ',' s.data).map (fun cs => ⟨cs⟩)

/-- `stringArrayCodec`: comma-joined out; back, the empty string gives `[]`
and anything else is comma-split. -/
def stringArrayCodec (key : String := "value") : Codec (List String) :=
  valueCodec joinComma (fun v => if v = "" then [] else splitComma v) key

/-- `jsonCodec(key = 'data')`: the whole value as one JSON parameter; on
decode, a missing or empty entry and a parse failure all fall back to the
structural empty object. -/
def jsonCodec (key : String := "data") : Codec JsonValue where
  encode := fun v => [(key, stringifyJson v)]
  decode := fun data =>
    match List.lookup key data with
    | none => .obj []
    | some raw => if raw = "" then .obj [] else (parseJson raw).getD (.obj [])

/-- The per-field stringification shared by `flatCodec` and `prefixCodec`:
`typeof val === 'string' ? val : JSON.stringify(val)`. -/
def encodeFieldStr : JsonValue → String
  | .str s => s
  | v => stringifyJson v

/-- `flatCodec()`: one entry per field; decode re-infers each field via
`JSON.parse`, keeping the raw string on failure. -/
def flatCodec : Codec JObj where
  encode := fun value => value.map (fun kv => (kv.1, encodeFieldStr kv.2))
  decode := fun data => data.foldl (fun out kv => objSet out kv.1 (parseOrRaw kv.2)) []

/-- JS `key.startsWith(pre)`. -/
def strStartsWith (s pre : String) : Bool := pre.data.isPrefixOf s.data

/-- JS `s.slice(n)`. -/
def strDropLen (s : String) (n : Nat) : String := ⟨s.data.drop n⟩

/-- `prefixCodec(namespace, separator = '.')`: flat encoding under
`namespace + separator`-qualified keys; decode considers only keys starting
with that prefix and strips it. -/
def prefixCodec (ns : String) (separator : String := ".") : Codec JObj :=
  let pre := ns ++ separator
  { encode := fun value => value.map (fun kv => (pre ++ kv.1, encodeFieldStr kv.2))
    decode := fun data =>
      data.foldl
        (fun out kv =>
          if strStartsWith kv.1 pre then
            objSet out (strDropLen kv.1 pre.length) (parseOrRaw kv.2)
          else out)
        [] }

/-- The `history` option values. -/
inductive HistoryMode where
  | push
  | replace
deriving DecidableEq, Repr

/-- `URLSyncOptions`: `history` is `none` when the field is not supplied
(the destructuring default then applies). -/
structure URLSyncOptions where
  history : Option HistoryMode := none
  useHash : Bool := false
  hashRouting : Bool := false

/-- The relevant parts of `window.location`: `base` is the URL up to (not
including) the query string, `search` is `location.search` (leading `?` or
empty), `hash` is `location.hash` (leading `#` or empty);
`location.href = base ++ search ++ hash`. -/
structure Location where
  base : String
  search : String
  hash : String
deriving DecidableEq, Repr

/-- A reified history / navigation mutation. -/
inductive HistEffect where
  | noop
  | replaceState (url : String)
  | pushState (url : String)
  | assignHash (newHash : String)
deriving DecidableEq, Repr

/-- `url.toString()` after assigning `url.search = qs` on
`new URL(location.href)`. -/
def newUrlString (loc : Location) (qs : String) : String :=
  loc.base ++ (if qs = "" then "" else "?" ++ qs) ++ loc.hash

/-! ## @kvkit/query (src/packages/query/src/index.ts) -/

/-- `getParamString(options)`, given an addressable location. -/
def getParamString (o : URLSyncOptions) (loc : Location) : String :=
  if o.useHash then
    let hash := jsSlice1 loc.hash
    if o.hashRouting then afterFirstQ hash else hash
  else loc.search

/-- `decodeFromQuery(codec, options, defaultValue?)`; `w = none` models a
context without `window`. -/
def decodeFromQuery {α : Type} (c : Codec α) (o : URLSyncOptions)
    (defaultValue : Option α) (w : Option Location) : α :=
  match w with
  | none =>
    match defaultValue with
    | some d => d
    | none => c.decode []
  | some loc =>
    let paramString := getParamString o loc
    if paramString = "" then
      match defaultValue with
      | some d => d
      | none => c.decode []
    else
      c.decode (urlSearchParamsToStringMap (parseParams paramString))

/-- `updateQuery(codec, value, options)`, with the history mutation it
performs reified as a `HistEffect`. -/
def updateQuery {α : Type} (c : Codec α) (v : α) (o : URLSyncOptions)
    (w : Option Location) : HistEffect :=
  match w with
  | none => .noop
  | some loc =>
    let queryString := serializeParams (stringMapToURLSearchParams (someVals (c.encode v)))
    if o.useHash then
      if o.hashRouting then
        let hash := jsSlice1 loc.hash
        let path := beforeFirstQ hash
        let newHash := if queryString ≠ "" then path ++ "?" ++ queryString else path
        if "#" ++ newHash ≠ loc.hash then .assignHash ("#" ++ newHash) else .noop
      else
        let newHash := "#" ++ queryString
        if newHash ≠ loc.hash then .assignHash newHash else .noop
    else
      if loc.search ≠ "?" ++ queryString then
        match o.history.getD .replace with
        | .replace => .replaceState (newUrlString loc queryString)
        | .push => .pushState (newUrlString loc queryString)
      else .noop

/-- The legacy `updateQuery(codec, value, { replace? })` variant (the
parameters-based API): throws outside a browser context, always commits. -/
def updateQueryLegacy {α : Type} (c : Codec α) (v : α) (replaceOpt : Bool)
    (w : Option Location) : Except String HistEffect :=
  match w with
  | none => .error "updateQuery can only be used in browser environment"
  | some loc =>
    let queryString := serializeParams (stringMapToURLSearchParams (someVals (c.encode v)))
    if replaceOpt then .ok (.replaceState (newUrlString loc queryString))
    else .ok (.pushState (newUrlString loc queryString))

/-- Codec used in the counterexample for the no-op claim: it encodes every
value to the empty string map. -/
def emptyCodec : Codec Unit where
  encode := fun _ => []
  decode := fun _ => ()

/-- A representative user codec for the hash-routing scenario (a product
query with `name` and `category` fields). -/
def productQueryCodec : Codec (String × String) where
  encode := fun v => [("name", v.1), ("category", v.2)]
  decode := fun m => ((List.lookup "name" m).getD "", (List.lookup "category" m).getD "")

/-! ## Helper lemmas on association-list operations -/

theorem lookup_beq_reduce {α : Type} (a k : String) (v : α) (t : List (String × α)) :
    List.lookup a ((k, v) :: t) = if a = k then some v else List.lookup a t := by
  by_cases h : a = k
  · have hb : (a == k) = true := beq_iff_eq.mpr h
    simp [List.lookup, hb, h]
  · have hb : (a == k) = false := beq_eq_false_iff_ne.mpr h
    simp [List.lookup, hb, h]

theorem lookup_objSet {α : Type} (m : List (String × α)) (k k' : String) (v : α) :
    List.lookup k' (objSet m k v) = if k' = k then some v else List.lookup k' m := by
  induction m with
  | nil =>
    by_cases h : k' = k <;> simp [objSet, lookup_beq_reduce, h]
  | cons p t ih =>
    obtain ⟨k0, v0⟩ := p
    by_cases h0 : k0 = k
    · subst h0
      by_cases h1 : k' = k0 <;> simp [objSet, lookup_beq_reduce, h1]
    · by_cases h1 : k' = k0
      · subst h1
        simp [objSet, h0, lookup_beq_reduce, Ne.symm h0]
      · simp [objSet, h0, lookup_beq_reduce, h1, ih]

theorem objSet_of_not_mem {α : Type} (m : List (String × α)) (k : String) (v : α)
    (h : ∀ p ∈ m, p.1 ≠ k) : objSet m k v = m ++ [(k, v)] := by
  induction m with
  | nil => rfl
  | cons p t ih =>
    obtain ⟨k0, v0⟩ := p
    have hk0 : k0 ≠ k := h (k0, v0) (by simp)
    simp only [objSet, if_neg hk0, List.cons_append, List.cons.injEq, true_and]
    exact ih (fun p hp => h p (by simp [hp]))

theorem foldl_objSet_map {β : Type} (f : String × String → β) :
    ∀ (data : List (String × String)) (acc : List (String × β)),
      (data.map Prod.fst).Nodup →
      (∀ p ∈ acc, ∀ q ∈ data, p.1 ≠ q.1) →
      data.foldl (fun out kv => objSet out kv.1 (f kv)) acc
        = acc ++ data.map (fun kv => (kv.1, f kv))
  | [], acc, _, _ => by simp
  | (k, v) :: t, acc, hnd, hdisj => by
    simp only [List.map_cons, List.nodup_cons] at hnd
    have hstep : objSet acc k (f (k, v)) = acc ++ [(k, f (k, v))] :=
      objSet_of_not_mem acc k (f (k, v))
        (fun p hp => hdisj p hp (k, v) (by simp))
    simp only [List.foldl_cons, hstep]
    rw [foldl_objSet_map f t (acc ++ [(k, f (k, v))]) hnd.2]
    · simp
    · intro p hp q hq
      rcases List.mem_append.1 hp with hp1 | hp2
      · exact hdisj p hp1 q (by simp [hq])
      · simp only [List.mem_singleton] at hp2
        subst hp2
        intro hq1
        simp only at hq1
        exact hnd.1 (hq1 ▸ List.mem_map_of_mem Prod.fst hq)

theorem removeKey_of_not_mem {α : Type} (m : List (String × α)) (k : String)
    (h : ∀ p ∈ m, p.1 ≠ k) : removeKey m k = m := by
  induction m with
  | nil => rfl
  | cons p t ih =>
    obtain ⟨k0, v0⟩ := p
    have hk0 : k0 ≠ k := h (k0, v0) (by simp)
    simp only [removeKey, if_neg hk0, List.cons.injEq, true_and]
    exact ih (fun p hp => h p (by simp [hp]))

theorem paramsSet_of_not_mem (m : List (String × String)) (k : String) (v : String)
    (h : ∀ p ∈ m, p.1 ≠ k) : paramsSet m k v = m ++ [(k, v)] := by
  induction m with
  | nil => rfl
  | cons p t ih =>
    obtain ⟨k0, v0⟩ := p
    have hk0 : k0 ≠ k := h (k0, v0) (by simp)
    simp only [paramsSet, if_neg hk0, List.cons_append, List.cons.injEq, true_and]
    exact ih (fun p hp => h p (by simp [hp]))

theorem foldl_paramsSet_someVals :
    ∀ (m : List (String × String)) (acc : List (String × String)),
      (m.map Prod.fst).Nodup →
      (∀ p ∈ acc, ∀ q ∈ m, p.1 ≠ q.1) →
      (someVals m).foldl
          (fun ps kv =>
            match kv.2 with
            | some v => paramsSet ps kv.1 v
            | none => ps)
          acc
        = acc ++ m
  | [], acc, _, _ => by simp [someVals]
  | (k, v) :: t, acc, hnd, hdisj => by
    simp only [List.map_cons, List.nodup_cons] at hnd
    have hstep : paramsSet acc k v = acc ++ [(k, v)] :=
      paramsSet_of_not_mem acc k v (fun p hp => hdisj p hp (k, v) (by simp))
    simp only [someVals, List.map_cons, List.foldl_cons, hstep]
    rw [show List.map (fun kv => (kv.1, some kv.2)) t = someVals t from rfl]
    rw [foldl_paramsSet_someVals t (acc ++ [(k, v)]) hnd.2]
    · simp
    · intro p hp q hq
      rcases List.mem_append.1 hp with hp1 | hp2
      · exact hdisj p hp1 q (by simp [hq])
      · simp only [List.mem_singleton] at hp2
        subst hp2
        intro hq1
        simp only at hq1
        exact hnd.1 (hq1 ▸ List.mem_map_of_mem Prod.fst hq)

/-! ## Claims -/

/-- C9: flattening a URL parameter collection maps each key to the last
value occurring for that key in iteration order; in particular
`name=John&name=Jane` flattens to `{name: "Jane"}`. -/
theorem urlSearchParamsToStringMap_last_wins :
    (∀ (ps : List (String × String)) (k : String),
      List.lookup k (urlSearchParamsToStringMap ps)
        = (ps.reverse.find? (fun kv => kv.1 == k)).map Prod.snd) ∧
    urlSearchParamsToStringMap (parseParams "name=John&name=Jane") = [("name", "Jane")] := by
  constructor
  · intro ps k
    induction ps using List.reverseRecOn with
    | nil => rfl
    | append_singleton ps kv ih =>
      obtain ⟨k0, v0⟩ := kv
      simp only [urlSearchParamsToStringMap, List.foldl_append, List.foldl_cons,
        List.foldl_nil] at ih ⊢
      rw [lookup_objSet]
      simp only [List.reverse_append, List.reverse_cons, List.reverse_nil, List.nil_append,
        List.cons_append, List.find?]
      by_cases h : k = k0
      · subst h
        simp [beq_iff_eq]
      · have hb : (k0 == k) = false := beq_eq_false_iff_ne.mpr (Ne.symm h)
        simp [h, hb, ih]
  · rfl

/-- C10: converting a string map whose values are all genuine strings into
URL parameters and flattening back is the identity. -/
theorem stringMap_params_roundtrip (m : List (String × String))
    (h : (m.map Prod.fst).Nodup) :
    urlSearchParamsToStringMap (stringMapToURLSearchParams (someVals m)) = m := by
  have h1 : stringMapToURLSearchParams (someVals m) = m := by
    have := foldl_paramsSet_someVals m [] h (by simp)
    simpa [stringMapToURLSearchParams] using this
  rw [h1]
  have := foldl_objSet_map Prod.snd m [] h (by simp)
  simpa [urlSearchParamsToStringMap] using this

/-- Witness for C10 at a concrete two-entry map. -/
theorem stringMap_params_roundtrip_witness :
    urlSearchParamsToStringMap (stringMapToURLSearchParams
        (someVals [("name", "John"), ("age", "30")]))
      = [("name", "John"), ("age", "30")] :=
  stringMap_params_roundtrip [("name", "John"), ("age", "30")] (by decide)

/-- C3: `decodeFromQuery` is total (never raises) and returns the fallback
(the supplied `fallbackValue`, else `codec.decode({})`) when there is no
window or the resolved parameter string is empty, and otherwise decodes the
string map parsed from the resolved parameter string. -/
theorem decodeFromQuery_never_raises {α : Type} (c : Codec α) (o : URLSyncOptions)
    (fallbackValue : Option α) (w : Option Location) :
    decodeFromQuery c o fallbackValue w =
      match w with
      | none => fallbackValue.getD (c.decode [])
      | some loc =>
        if getParamString o loc = "" then fallbackValue.getD (c.decode [])
        else c.decode (urlSearchParamsToStringMap (parseParams (getParamString o loc))) := by
  cases w with
  | none => cases fallbackValue <;> rfl
  | some loc =>
    by_cases h : getParamString o loc = "" <;> cases fallbackValue <;>
      simp [decodeFromQuery, h]

/-- C6: the whole-object JSON codec's decode never raises: a missing entry
yields the empty object, an unparseable entry yields the same empty-object
fallback, and otherwise the parsed JSON value is returned. -/
theorem jsonCodec_decode_cases (key : String) (m : List (String × String)) :
    (jsonCodec key).decode m =
      match List.lookup key m with
      | none => .obj []
      | some raw =>
        match parseJson raw with
        | none => .obj []
        | some j => j := by
  show (match List.lookup key m with
    | none => (JsonValue.obj [])
    | some raw => if raw = "" then .obj [] else (parseJson raw).getD (.obj [])) = _
  cases List.lookup key m with
  | none => rfl
  | some raw =>
    by_cases hr : raw = ""
    · subst hr
      rfl
    · simp only [if_neg hr]
      cases parseJson raw <;> rfl

/-- C4: the flattened codec re-infers types on decode: the string field
`"5"` comes back as the number `5`; in general a single string field comes
back JSON-parsed when its text is valid JSON and unchanged otherwise. -/
theorem flatCodec_json_reinference :
    flatCodec.decode (flatCodec.encode [("name", .str "5")]) = [("name", .num 5)] ∧
    (∀ (k s : String),
      flatCodec.decode (flatCodec.encode [(k, .str s)])
        = [(k, (parseJson s).getD (.str s))]) :=
  ⟨rfl, fun _ _ => rfl⟩

theorem strExt {s t : String} (h : s.data = t.data) : s = t := by
  cases s
  cases t
  exact congrArg String.mk h

theorem takeWhile_all_append (pred : Char → Bool) (l₁ l₂ : List Char)
    (h : ∀ x ∈ l₁, pred x = true) :
    (l₁ ++ l₂).takeWhile pred = l₁ ++ l₂.takeWhile pred := by
  induction l₁ with
  | nil => simp
  | cons c t ih =>
    have hc : pred c = true := h c (by simp)
    simp [List.takeWhile_cons, hc, ih (fun x hx => h x (by simp [hx]))]

theorem dropWhile_all_append (pred : Char → Bool) (l₁ l₂ : List Char)
    (h : ∀ x ∈ l₁, pred x = true) :
    (l₁ ++ l₂).dropWhile pred = l₂.dropWhile pred := by
  induction l₁ with
  | nil => simp
  | cons c t ih =>
    have hc : pred c = true := h c (by simp)
    simp [List.dropWhile_cons, hc, ih (fun x hx => h x (by simp [hx]))]

theorem hashBody_data (path q : String) :
    (jsSlice1 ("#" ++ path ++ "?" ++ q)).data = path.data ++ '?' :: q.data := by
  simp [jsSlice1, String.data_append]

theorem hash_split_after (path q : String) (hp : '?' ∉ path.data) :
    afterFirstQ (jsSlice1 ("#" ++ path ++ "?" ++ q)) = q := by
  apply strExt
  rw [show (afterFirstQ (jsSlice1 ("#" ++ path ++ "?" ++ q))).data
      = afterChar '?' (jsSlice1 ("#" ++ path ++ "?" ++ q)).data from rfl]
  rw [hashBody_data]
  unfold afterChar
  rw [dropWhile_all_append _ _ _ (fun x hx => by
    simp only [decide_eq_true_eq]
    exact fun hx2 => hp (hx2 ▸ hx))]
  simp [List.dropWhile_cons]

theorem hash_split_before (path q : String) (hp : '?' ∉ path.data) :
    beforeFirstQ (jsSlice1 ("#" ++ path ++ "?" ++ q)) = path := by
  apply strExt
  rw [show (beforeFirstQ (jsSlice1 ("#" ++ path ++ "?" ++ q))).data
      = beforeChar '?' (jsSlice1 ("#" ++ path ++ "?" ++ q)).data from rfl]
  rw [hashBody_data]
  unfold beforeChar
  rw [takeWhile_all_append _ _ _ (fun x hx => by
    simp only [decide_eq_true_eq]
    exact fun hx2 => hp (hx2 ▸ hx))]
  simp [List.takeWhile_cons]

theorem hash_noQ_after (path : String) (hp : '?' ∉ path.data) :
    afterFirstQ (jsSlice1 ("#" ++ path)) = "" := by
  apply strExt
  rw [show (afterFirstQ (jsSlice1 ("#" ++ path))).data
      = afterChar '?' (jsSlice1 ("#" ++ path)).data from rfl]
  rw [show (jsSlice1 ("#" ++ path)).data = path.data from by
    simp [jsSlice1, String.data_append]]
  unfold afterChar
  rw [List.dropWhile_eq_nil_iff.mpr (fun x hx => by
    simp only [decide_eq_true_eq]
    exact fun hx2 => hp (hx2 ▸ hx))]

/-- Reduction of `updateQuery` in hash-routing mode. -/
theorem updateQuery_hashRouting_eq {α : Type} (c : Codec α) (v : α) (h : Option HistoryMode)
    (loc : Location) :
    updateQuery c v { history := h, useHash := true, hashRouting := true } (some loc)
      = (let qs := serializeParams (stringMapToURLSearchParams (someVals (c.encode v)))
         let path := beforeFirstQ (jsSlice1 loc.hash)
         let newHash := if qs ≠ "" then path ++ "?" ++ qs else path
         if "#" ++ newHash ≠ loc.hash then .assignHash ("#" ++ newHash) else .noop) := rfl

theorem hash_ne_of_qs_ne (path q qs : String) (hne : qs ≠ q) :
    "#" ++ (path ++ "?" ++ qs) ≠ "#" ++ path ++ "?" ++ q := by
  intro heq
  apply hne
  have hd := congrArg String.data heq
  simp only [String.data_append, List.append_assoc, List.cons_append, List.nil_append] at hd
  apply strExt
  have hd2 : path.data ++ '?' :: qs.data = path.data ++ '?' :: q.data := by
    simpa using hd
  simpa using List.append_cancel_left hd2

theorem hash_ne_bare_path (path q : String) :
    "#" ++ path ≠ "#" ++ path ++ "?" ++ q := by
  intro heq
  have hd := congrArg (fun s => s.data.length) heq
  simp [String.data_append] at hd

/-- C7: with `useHash` and `hashRouting` both true, the parameter string is
everything after the hash body's first `?` (empty when there is no `?`),
the preserved path is everything before it, and `updateQuery` reassembles
`path?newParams` (bare path when the new parameters are empty); concretely,
`#/products?name=laptop&category=electronics` splits into path `/products`
and params `name=laptop&category=electronics`, and updating yields
`#/products?name=tablet&category=electronics`. -/
theorem hashRouting_split_reassemble :
    (∀ (path q b s : String), '?' ∉ path.data →
      getParamString { useHash := true, hashRouting := true } ⟨b, s, "#" ++ path ++ "?" ++ q⟩ = q ∧
      beforeFirstQ (jsSlice1 ("#" ++ path ++ "?" ++ q)) = path) ∧
    (∀ (path b s : String), '?' ∉ path.data →
      getParamString { useHash := true, hashRouting := true } ⟨b, s, "#" ++ path⟩ = "") ∧
    (∀ (α : Type) (c : Codec α) (v : α) (path q b s : String), '?' ∉ path.data →
      serializeParams (stringMapToURLSearchParams (someVals (c.encode v))) ≠ "" →
      serializeParams (stringMapToURLSearchParams (someVals (c.encode v))) ≠ q →
      updateQuery c v { useHash := true, hashRouting := true } (some ⟨b, s, "#" ++ path ++ "?" ++ q⟩)
        = .assignHash ("#" ++ path ++ "?"
            ++ serializeParams (stringMapToURLSearchParams (someVals (c.encode v))))) ∧
    (∀ (α : Type) (c : Codec α) (v : α) (path q b s : String), '?' ∉ path.data →
      serializeParams (stringMapToURLSearchParams (someVals (c.encode v))) = "" →
      updateQuery c v { useHash := true, hashRouting := true } (some ⟨b, s, "#" ++ path ++ "?" ++ q⟩)
        = .assignHash ("#" ++ path)) ∧
    getParamString { useHash := true, hashRouting := true }
        ⟨"http://localhost/", "", "#/products?name=laptop&category=electronics"⟩
      = "name=laptop&category=electronics" ∧
    beforeFirstQ (jsSlice1 "#/products?name=laptop&category=electronics") = "/products" ∧
    updateQuery productQueryCodec ("tablet", "electronics")
        { useHash := true, hashRouting := true }
        (some ⟨"http://localhost/", "", "#/products?name=laptop&category=electronics"⟩)
      = .assignHash "#/products?name=tablet&category=electronics" := by
  refine ⟨?_, ?_, ?_, ?_, rfl, rfl, rfl⟩
  · intro path q b s hp
    exact ⟨hash_split_after path q hp, hash_split_before path q hp⟩
  · intro path b s hp
    exact hash_noQ_after path hp
  · intro α c v path q b s hp hqs hne
    rw [updateQuery_hashRouting_eq]
    simp only
    rw [hash_split_before path q hp, if_pos hqs, if_pos (hash_ne_of_qs_ne path q _ hne)]
    rw [show "#" ++ (path ++ "?" ++ serializeParams (stringMapToURLSearchParams (someVals (c.encode v))))
        = "#" ++ path ++ "?" ++ serializeParams (stringMapToURLSearchParams (someVals (c.encode v))) from by
      simp [String.append_assoc]]
  · intro α c v path q b s hp hqs
    rw [updateQuery_hashRouting_eq]
    simp only
    rw [hash_split_before path q hp, hqs]
    simp only [ne_eq, not_true_eq_false, if_false]
    rw [if_pos (hash_ne_bare_path path q)]

/-- Witness for C7 at concrete paths, query strings, and codecs. -/
theorem hashRouting_split_reassemble_witness :
    getParamString { useHash := true, hashRouting := true }
        ⟨"http://h/", "", "#" ++ "/p" ++ "?" ++ "a=1"⟩ = "a=1" ∧
    getParamString { useHash := true, hashRouting := true } ⟨"http://h/", "", "#" ++ "/p"⟩ = "" ∧
    updateQuery (stringCodec "q") "hi" { useHash := true, hashRouting := true }
        (some ⟨"http://h/", "", "#" ++ "/p" ++ "?" ++ "a=1"⟩)
      = .assignHash ("#" ++ "/p" ++ "?"
          ++ serializeParams (stringMapToURLSearchParams (someVals ((stringCodec "q").encode "hi")))) ∧
    updateQuery emptyCodec () { useHash := true, hashRouting := true }
        (some ⟨"http://h/", "", "#" ++ "/p" ++ "?" ++ "a=1"⟩)
      = .assignHash ("#" ++ "/p") :=
  ⟨(hashRouting_split_reassemble.1 "/p" "a=1" "http://h/" "" (by decide)).1,
   hashRouting_split_reassemble.2.1 "/p" "http://h/" "" (by decide),
   hashRouting_split_reassemble.2.2.1 String (stringCodec "q") "hi" "/p" "a=1" "http://h/" ""
     (by decide) (by decide) (by decide),
   hashRouting_split_reassemble.2.2.2.1 Unit emptyCodec () "/p" "a=1" "http://h/" ""
     (by decide) (by decide)⟩

/-- C8: on a changed non-hash URL, the newer options-based `updateQuery`
defaults to history-replace (push only when `history: 'push'` is given),
while the legacy variant defaults to history-push (replace only when
`replace: true` is given). -/
theorem updateQuery_history_modes {α : Type} (c : Codec α) (v : α) (loc : Location)
    (h : loc.search ≠ "?" ++ serializeParams (stringMapToURLSearchParams (someVals (c.encode v)))) :
    updateQuery c v {} (some loc)
        = .replaceState (newUrlString loc
            (serializeParams (stringMapToURLSearchParams (someVals (c.encode v))))) ∧
    updateQuery c v { history := some .push } (some loc)
        = .pushState (newUrlString loc
            (serializeParams (stringMapToURLSearchParams (someVals (c.encode v))))) ∧
    updateQuery c v { history := some .replace } (some loc)
        = .replaceState (newUrlString loc
            (serializeParams (stringMapToURLSearchParams (someVals (c.encode v))))) ∧
    updateQueryLegacy c v false (some loc)
        = .ok (.pushState (newUrlString loc
            (serializeParams (stringMapToURLSearchParams (someVals (c.encode v)))))) ∧
    updateQueryLegacy c v true (some loc)
        = .ok (.replaceState (newUrlString loc
            (serializeParams (stringMapToURLSearchParams (someVals (c.encode v)))))) := by
  refine ⟨?_, ?_, ?_, rfl, rfl⟩ <;> simp [updateQuery, h]

/-- Witness for C8 at a concrete codec, value, and location. -/
theorem updateQuery_history_modes_witness :
    updateQuery (stringCodec "q") "hi" {} (some ⟨"http://localhost/", "", ""⟩)
        = .replaceState (newUrlString ⟨"http://localhost/", "", ""⟩
            (serializeParams (stringMapToURLSearchParams
              (someVals ((stringCodec "q").encode "hi"))))) ∧
    updateQueryLegacy (stringCodec "q") "hi" false (some ⟨"http://localhost/", "", ""⟩)
        = .ok (.pushState (newUrlString ⟨"http://localhost/", "", ""⟩
            (serializeParams (stringMapToURLSearchParams
              (someVals ((stringCodec "q").encode "hi")))))) :=
  ⟨(updateQuery_history_modes (stringCodec "q") "hi" ⟨"http://localhost/", "", ""⟩ (by decide)).1,
   (updateQuery_history_modes (stringCodec "q") "hi" ⟨"http://localhost/", "", ""⟩
     (by decide)).2.2.2.1⟩

/-- C1 (amended): `updateQuery` performs no history mutation precisely when
the freshly assembled target, including its `?` / `#` sigil, string-equals
the current location component; because an empty query serializes
`location.search` as the empty string while the comparison target is `'?'`,
the empty-encoding / empty-query corner still fires a mutation. -/
theorem updateQuery_noop_iff {α : Type} (c : Codec α) (v : α) (o : URLSyncOptions)
    (loc : Location) :
    updateQuery c v o (some loc) = .noop ↔
      ((o.useHash = false →
          loc.search
            = "?" ++ serializeParams (stringMapToURLSearchParams (someVals (c.encode v)))) ∧
       (o.useHash = true → o.hashRouting = false →
          loc.hash
            = "#" ++ serializeParams (stringMapToURLSearchParams (someVals (c.encode v)))) ∧
       (o.useHash = true → o.hashRouting = true →
          loc.hash
            = "#" ++ (if serializeParams (stringMapToURLSearchParams (someVals (c.encode v))) ≠ ""
                then beforeFirstQ (jsSlice1 loc.hash) ++ "?"
                  ++ serializeParams (stringMapToURLSearchParams (someVals (c.encode v)))
                else beforeFirstQ (jsSlice1 loc.hash)))) := by
  obtain ⟨h, uh, hr⟩ := o
  cases uh
  · by_cases hs : loc.search
        = "?" ++ serializeParams (stringMapToURLSearchParams (someVals (c.encode v)))
    · simp [updateQuery, hs]
    · simp only [updateQuery, if_pos hs]
      cases h0 : (h.getD HistoryMode.replace) <;> simp [hs]
  · cases hr
    · by_cases hh : loc.hash
          = "#" ++ serializeParams (stringMapToURLSearchParams (someVals (c.encode v)))
      · simp [updateQuery, hh]
      · simp [updateQuery, hh, Ne.symm hh]
    · by_cases hh : loc.hash
          = "#" ++ (if serializeParams (stringMapToURLSearchParams (someVals (c.encode v))) ≠ ""
              then beforeFirstQ (jsSlice1 loc.hash) ++ "?"
                ++ serializeParams (stringMapToURLSearchParams (someVals (c.encode v)))
              else beforeFirstQ (jsSlice1 loc.hash))
      · rw [updateQuery_hashRouting_eq]
        simp only
        rw [if_neg (fun hne => hne hh.symm)]
        exact iff_of_true rfl ⟨by simp, by simp, fun _ _ => hh⟩
      · rw [updateQuery_hashRouting_eq]
        simp only
        rw [if_pos (fun heq => hh heq.symm)]
        refine iff_of_false (by simp) ?_
        intro hc
        exact hh (hc.2.2 (by trivial) (by trivial))

/-- Counterexample to C1 as stated: with a codec that encodes to the empty
string map and a location whose query and hash are both empty, the encoded
parameter string equals the current (empty) serialized query string, yet
`updateQuery` still invokes a history-replace (resp. a hash assignment in
hash mode) rather than performing no mutation. -/
theorem updateQuery_noop_empty_query_cex :
    serializeParams (stringMapToURLSearchParams (someVals (emptyCodec.encode ()))) = "" ∧
    (Location.mk "http://localhost/" "" "").search = "" ∧
    (Location.mk "http://localhost/" "" "").hash = "" ∧
    updateQuery emptyCodec () {} (some (Location.mk "http://localhost/" "" ""))
      = .replaceState "http://localhost/" ∧
    updateQuery emptyCodec () { useHash := true } (some (Location.mk "http://localhost/" "" ""))
      = .assignHash "#" ∧
    updateQuery emptyCodec () {} (some (Location.mk "http://localhost/" "" "")) ≠ .noop := by
  decide

theorem strEta (s : String) : (⟨s.data⟩ : String) = s := rfl

theorem digitVal_digitChar10 (d : Nat) (hd : d < 10) : digitVal (digitChar10 d) = d := by
  interval_cases d <;> rfl

theorem digitChar10_isDigit (d : Nat) (hd : d < 10) : isDigitC (digitChar10 d) = true := by
  interval_cases d <;> rfl

theorem toDigitsAux_lt (fuel : Nat) :
    ∀ (n : Nat), n < fuel → ∀ d ∈ toDigitsAux fuel n, d < 10 := by
  induction fuel with
  | zero => intro n hn; omega
  | succ f ih =>
    intro n hn d hd
    by_cases h10 : n < 10
    · simp [toDigitsAux, h10] at hd
      omega
    · simp only [toDigitsAux, if_neg h10, List.mem_append, List.mem_singleton] at hd
      rcases hd with hd1 | hd2
      · exact ih (n / 10) (by omega) d hd1
      · omega

theorem toDigitsAux_ne_nil (fuel n : Nat) (hn : n < fuel) : toDigitsAux fuel n ≠ [] := by
  cases fuel with
  | zero => omega
  | succ f =>
    by_cases h10 : n < 10 <;> simp [toDigitsAux, h10]

theorem toDigitsAux_head_ne_zero (fuel : Nat) :
    ∀ (n : Nat), n < fuel → 1 ≤ n → (toDigitsAux fuel n).head? ≠ some 0 := by
  induction fuel with
  | zero => intro n hn; omega
  | succ f ih =>
    intro n hn h1
    by_cases h10 : n < 10
    · simp [toDigitsAux, h10]
      omega
    · simp only [toDigitsAux, if_neg h10]
      have hne := toDigitsAux_ne_nil f (n / 10) (by omega)
      rw [List.head?_append_of_ne_nil _ hne]
      exact ih (n / 10) (by omega) (by omega)

theorem foldl_digits_value (fuel : Nat) :
    ∀ (n a : Nat), n < fuel →
      ((toDigitsAux fuel n).map digitChar10).foldl (fun acc c => acc * 10 + digitVal c) a
        = a * 10 ^ (toDigitsAux fuel n).length + n := by
  induction fuel with
  | zero => intro n a hn; omega
  | succ f ih =>
    intro n a hn
    by_cases h10 : n < 10
    · simp [toDigitsAux, h10, digitVal_digitChar10 n h10]
    · simp only [toDigitsAux, if_neg h10, List.map_append, List.foldl_append, List.map_cons,
        List.map_nil, List.foldl_cons, List.foldl_nil, List.length_append, List.length_cons,
        List.length_nil]
      rw [ih (n / 10) a (by omega)]
      rw [digitVal_digitChar10 (n % 10) (by omega)]
      rw [pow_succ, ← mul_assoc]
      generalize a * 10 ^ (toDigitsAux f (n / 10)).length = B
      omega

theorem digitsToNat_natChars (n : Nat) : digitsToNat (natChars n) = n := by
  have := foldl_digits_value (n + 1) n 0 (by omega)
  simpa [digitsToNat, natChars, toDigitsMSB] using this

theorem natChars_all_digit (n : Nat) : ∀ c ∈ natChars n, isDigitC c = true := by
  intro c hc
  simp only [natChars, toDigitsMSB, List.mem_map] at hc
  obtain ⟨d, hd, rfl⟩ := hc
  exact digitChar10_isDigit d (toDigitsAux_lt (n + 1) n (by omega) d hd)

theorem natChars_ne_nil (n : Nat) : natChars n ≠ [] := by
  simp only [natChars, toDigitsMSB]
  intro h
  exact toDigitsAux_ne_nil (n + 1) n (by omega) (by simpa using h)

theorem takeWhile_nodigit (rest : List Char)
    (h : ∀ c, rest.head? = some c → isDigitC c = false) :
    rest.takeWhile isDigitC = [] := by
  cases rest with
  | nil => rfl
  | cons c t =>
    have := h c rfl
    simp [List.takeWhile_cons, this]

theorem dropWhile_nodigit (rest : List Char)
    (h : ∀ c, rest.head? = some c → isDigitC c = false) :
    rest.dropWhile isDigitC = rest := by
  cases rest with
  | nil => rfl
  | cons c t =>
    have := h c rfl
    simp [List.dropWhile_cons, this]

theorem natChars_head_ne_zeroChar (n : Nat) (hn : 10 ≤ n) :
    (natChars n).head? ≠ some '0' := by
  simp only [natChars, toDigitsMSB]
  have hne := toDigitsAux_ne_nil (n + 1) n (by omega)
  obtain ⟨d, ds, hds⟩ := List.exists_cons_of_ne_nil hne
  rw [hds]
  simp only [List.map_cons, List.head?_cons, ne_eq, Option.some.injEq]
  have hd0 : d ≠ 0 := by
    have := toDigitsAux_head_ne_zero (n + 1) n (by omega) (by omega)
    rw [hds] at this
    simpa using this
  have hdlt : d < 10 := toDigitsAux_lt (n + 1) n (by omega) d (by simp [hds])
  interval_cases d <;> simp_all <;> decide

theorem parseNatC_natChars (n : Nat) (rest : List Char)
    (hnd : ∀ c, rest.head? = some c → isDigitC c = false) :
    parseNatC (natChars n ++ rest) = some (n, rest) := by
  have htake : (natChars n ++ rest).takeWhile isDigitC = natChars n := by
    rw [takeWhile_all_append isDigitC _ _ (natChars_all_digit n), takeWhile_nodigit rest hnd,
      List.append_nil]
  have hdrop : (natChars n ++ rest).dropWhile isDigitC = rest := by
    rw [dropWhile_all_append isDigitC _ _ (natChars_all_digit n), dropWhile_nodigit rest hnd]
  simp only [parseNatC, htake, hdrop, if_neg (natChars_ne_nil n)]
  rw [if_neg]
  · rw [digitsToNat_natChars]
  · intro hzl
    by_cases h10 : n < 10
    · have hlen : (natChars n).length = 1 := by
        simp [natChars, toDigitsMSB, toDigitsAux, h10]
      exact hzl.2 hlen
    · exact natChars_head_ne_zeroChar n (by omega) hzl.1

theorem digitsOnly_natChars (n : Nat) : digitsOnly (natChars n) = some n := by
  have htake : (natChars n).takeWhile isDigitC = natChars n := by
    have := takeWhile_all_append isDigitC (natChars n) [] (natChars_all_digit n)
    simpa using this
  have hdrop : (natChars n).dropWhile isDigitC = [] := by
    have := dropWhile_all_append isDigitC (natChars n) [] (natChars_all_digit n)
    simpa using this
  simp [digitsOnly, htake, hdrop, if_neg (natChars_ne_nil n), digitsToNat_natChars]

theorem isDigitC_head_not_dash (c : Char) (h : isDigitC c = true) : c ≠ '-' := by
  intro he
  rw [he] at h
  exact absurd h (by decide)

theorem jsNumber_intStr (i : Int) : jsNumber (intStr i) = some i := by
  by_cases hi : i < 0
  · have hdat : (intStr i).data = '-' :: natChars i.natAbs := by
      simp [intStr, intChars, hi]
    simp only [jsNumber, hdat, if_pos rfl, digitsOnly_natChars, Option.map_some',
      Option.some.injEq, ite_true, Int.ofNat_eq_natCast]
    omega
  · have hdat : (intStr i).data = natChars i.toNat := by
      simp only [intStr, intChars, if_neg hi]
    obtain ⟨c, cs, hc⟩ := List.exists_cons_of_ne_nil (natChars_ne_nil i.toNat)
    have hcd : isDigitC c = true := natChars_all_digit i.toNat c (by simp [hc])
    simp only [jsNumber, hdat, hc, if_neg (isDigitC_head_not_dash c hcd)]
    rw [← hc, digitsOnly_natChars]
    simp only [Option.map_some', Option.some.injEq, Int.ofNat_eq_natCast]
    omega

theorem lookup_self (key v : String) (t : List (String × String)) :
    List.lookup key ((key, v) :: t) = some v := by
  rw [lookup_beq_reduce, if_pos rfl]

theorem escapeChars_cons (c : Char) (t : List Char) :
    escapeChars (c :: t) = escChar c ++ escapeChars t := by
  simp [escapeChars]

theorem parseStrBody_escape : ∀ (s rest : List Char),
    parseStrBody (escapeChars s ++ '"' :: rest) = some (s, rest) := by
  intro s
  induction s with
  | nil =>
    intro rest
    show parseStrBody ('"' :: rest) = some ([], rest)
    rw [parseStrBody.eq_def]
    simp
  | cons c t ih =>
    intro rest
    by_cases hq : c = '"'
    · subst hq
      show parseStrBody ('\\' :: '"' :: (escapeChars t ++ '"' :: rest)) = some ('"' :: t, rest)
      rw [parseStrBody.eq_def]
      simp [ih rest]
    · by_cases hb : c = '\\'
      · subst hb
        show parseStrBody ('\\' :: '\\' :: (escapeChars t ++ '"' :: rest))
          = some ('\\' :: t, rest)
        rw [parseStrBody.eq_def]
        simp [ih rest]
      · rw [escapeChars_cons, show escChar c = [c] from by simp [escChar, hq, hb]]
        simp only [List.cons_append, List.nil_append]
        have hne : escapeChars t ++ '"' :: rest ≠ [] := by simp
        obtain ⟨d, ds, hds⟩ := List.exists_cons_of_ne_nil hne
        rw [hds, parseStrBody.eq_def]
        simp only [hb, hq, if_false]
        rw [← hds, ih rest]
        rfl

theorem isDigitC_not_starter (c : Char) (h : isDigitC c = true) :
    c ≠ 'n' ∧ c ≠ 't' ∧ c ≠ 'f' ∧ c ≠ '"' ∧ c ≠ '-' ∧ c ≠ '[' ∧ c ≠ '{' ∧
    c ≠ ']' ∧ c ≠ '}' ∧ c ≠ ',' ∧ isWsC c = false := by
  refine ⟨fun he => absurd (he ▸ h) (by decide), fun he => absurd (he ▸ h) (by decide),
    fun he => absurd (he ▸ h) (by decide), fun he => absurd (he ▸ h) (by decide),
    fun he => absurd (he ▸ h) (by decide), fun he => absurd (he ▸ h) (by decide),
    fun he => absurd (he ▸ h) (by decide), fun he => absurd (he ▸ h) (by decide),
    fun he => absurd (he ▸ h) (by decide), fun he => absurd (he ▸ h) (by decide), ?_⟩
  cases hw : isWsC c
  · rfl
  · exfalso
    have : c = ' ' ∨ c = '\t' ∨ c = '\n' ∨ c = '\r' := by
      simpa [isWsC, or_assoc] using hw
    rcases this with rfl | rfl | rfl | rfl <;> exact absurd h (by decide)

theorem jsonChars_head (v : JsonValue) :
    ∃ c cs, jsonChars v = c :: cs ∧ c ≠ ']' ∧ c ≠ '}' ∧ isWsC c = false := by
  cases v with
  | null => exact ⟨'n', _, rfl, by decide, by decide, by decide⟩
  | bool b => cases b
              · exact ⟨'f', _, rfl, by decide, by decide, by decide⟩
              · exact ⟨'t', _, rfl, by decide, by decide, by decide⟩
  | num i =>
    by_cases hi : i < 0
    · refine ⟨'-', natChars i.natAbs, ?_, by decide, by decide, by decide⟩
      show intChars i = _
      simp [intChars, hi]
    · obtain ⟨c, cs, hc⟩ := List.exists_cons_of_ne_nil (natChars_ne_nil i.toNat)
      have hcd : isDigitC c = true := natChars_all_digit i.toNat c (by simp [hc])
      have hfacts := isDigitC_not_starter c hcd
      refine ⟨c, cs, ?_, hfacts.2.2.2.2.2.2.2.1, hfacts.2.2.2.2.2.2.2.2.1,
        hfacts.2.2.2.2.2.2.2.2.2.2⟩
      show intChars i = _
      rw [show intChars i = natChars i.toNat from by simp [intChars, hi], hc]
  | str s => exact ⟨'"', _, rfl, by decide, by decide, by decide⟩
  | arr l => exact ⟨'[', _, rfl, by decide, by decide, by decide⟩
  | obj l => exact ⟨'{', _, rfl, by decide, by decide, by decide⟩

theorem jsonChars_arr_eq (l : List JsonValue) : jsonChars (.arr l) = '[' :: (arrChars l ++ [']']) := rfl
theorem jsonChars_obj_eq (l : List (String × JsonValue)) : jsonChars (.obj l) = '{' :: (objChars l ++ ['}']) := rfl
theorem arrChars_cons (v : JsonValue) (t : List JsonValue) : arrChars (v :: t) = jsonChars v ++ arrTail t := rfl
theorem arrTail_cons (v : JsonValue) (t : List JsonValue) : arrTail (v :: t) = ',' :: (jsonChars v ++ arrTail t) := rfl
theorem objChars_cons (kv : String × JsonValue) (t : List (String × JsonValue)) : objChars (kv :: t) = fieldChars kv ++ objTail t := rfl
theorem objTail_cons (kv : String × JsonValue) (t : List (String × JsonValue)) : objTail (kv :: t) = ',' :: (fieldChars kv ++ objTail t) := rfl
theorem fieldChars_eq (k : String) (v : JsonValue) : fieldChars (k, v) = '"' :: (escapeChars k.data ++ '"' :: ':' :: jsonChars v) := rfl
theorem jsonChars_str_eq (s : String) : jsonChars (.str s) = '"' :: (escapeChars s.data ++ ['"']) := rfl

theorem jsonChars_ne_nil (v : JsonValue) : jsonChars v ≠ [] := by
  obtain ⟨c, cs, hc, _⟩ := jsonChars_head v
  simp [hc]

theorem parse_stringify_rt : ∀ fuel : Nat,
    (∀ (v : JsonValue) (rest : List Char),
       (jsonChars v).length < fuel →
       (∀ c, rest.head? = some c → isDigitC c = false) →
       parseVal fuel (jsonChars v ++ rest) = some (v, rest)) ∧
    (∀ (l : List JsonValue) (rest : List Char), l ≠ [] →
       (arrChars l).length + 1 < fuel →
       (∀ c, rest.head? = some c → isDigitC c = false ∧ c ≠ ',') →
       parseElems fuel (arrChars l ++ rest) = some (l, rest)) ∧
    (∀ (l : List (String × JsonValue)) (rest : List Char), l ≠ [] →
       (objChars l).length + 1 < fuel →
       (∀ c, rest.head? = some c → isDigitC c = false ∧ c ≠ ',') →
       parseFields fuel (objChars l ++ rest) = some (l, rest)) := by
  intro fuel
  induction fuel with
  | zero =>
    exact ⟨fun v rest h _ => absurd h (by omega),
      fun l rest _ h _ => absurd h (by omega),
      fun l rest _ h _ => absurd h (by omega)⟩
  | succ f ih =>
    obtain ⟨ihP, ihQ, ihR⟩ := ih
    refine ⟨?_, ?_, ?_⟩
    · intro v rest hlen hnd
      cases v with
      | null => rfl
      | bool b => cases b <;> rfl
      | num i =>
        by_cases hi : i < 0
        · have hd : jsonChars (.num i) ++ rest = '-' :: (natChars i.natAbs ++ rest) := by
            show intChars i ++ rest = _
            simp [intChars, hi]
          rw [hd, parseVal.eq_def]
          simp only [reduceIte]
          rw [parseNatC_natChars i.natAbs rest hnd]
          have hval : -((i.natAbs : Nat) : Int) = i := by omega
          simp only [Option.map_some']
          rw [hval]
          simp
        · obtain ⟨c, cs, hc⟩ := List.exists_cons_of_ne_nil (natChars_ne_nil i.toNat)
          have hcd : isDigitC c = true := natChars_all_digit i.toNat c (by simp [hc])
          obtain ⟨h1, h2, h3, h4, h5, h6, h7, _⟩ := isDigitC_not_starter c hcd
          have hd : jsonChars (.num i) ++ rest = c :: (cs ++ rest) := by
            show intChars i ++ rest = _
            simp [intChars, hi, hc]
          rw [hd, parseVal.eq_def]
          simp only [if_neg h1, if_neg h2, if_neg h3, if_neg h4, if_neg h5, if_neg h6,
            if_neg h7, if_pos hcd]
          rw [show c :: (cs ++ rest) = natChars i.toNat ++ rest from by rw [hc]; rfl]
          rw [parseNatC_natChars i.toNat rest hnd]
          have hval : ((i.toNat : Nat) : Int) = i := by omega
          simp only [Option.map_some']
          rw [hval]
      | str s =>
        have hd : jsonChars (.str s) ++ rest = '"' :: (escapeChars s.data ++ '"' :: rest) := by
          rw [jsonChars_str_eq]
          simp
        rw [hd, parseVal.eq_def]
        simp only [reduceIte]
        rw [parseStrBody_escape s.data rest]
        rfl
      | arr l =>
        cases l with
        | nil => rfl
        | cons v0 t =>
          have hd : jsonChars (.arr (v0 :: t)) ++ rest
              = '[' :: (arrChars (v0 :: t) ++ ']' :: rest) := by
            rw [jsonChars_arr_eq]
            simp
          obtain ⟨c0, cs0, hc0, hc0r, _, _⟩ := jsonChars_head v0
          have hhead : (arrChars (v0 :: t) ++ ']' :: rest).head? = some c0 := by
            rw [arrChars_cons, hc0]
            rfl
          have hlen2 : (arrChars (v0 :: t)).length + 1 < f := by
            rw [jsonChars_arr_eq] at hlen
            simp at hlen
            omega
          have hcont2 : ∀ c, (']' :: rest).head? = some c → isDigitC c = false ∧ c ≠ ',' := by
            intro c hc
            simp only [List.head?_cons, Option.some.injEq] at hc
            subst hc
            exact ⟨by decide, by decide⟩
          rw [hd, parseVal.eq_def]
          simp [hhead, hc0r, ihQ (v0 :: t) (']' :: rest) (by simp) hlen2 hcont2]
      | obj l =>
        cases l with
        | nil => rfl
        | cons f0 t =>
          have hd : jsonChars (.obj (f0 :: t)) ++ rest
              = '{' :: (objChars (f0 :: t) ++ '}' :: rest) := by
            rw [jsonChars_obj_eq]
            simp
          obtain ⟨k0, v0⟩ := f0
          have hhead : (objChars ((k0, v0) :: t) ++ '}' :: rest).head? = some '"' := by
            rw [objChars_cons, fieldChars_eq]
            rfl
          have hlen2 : (objChars ((k0, v0) :: t)).length + 1 < f := by
            rw [jsonChars_obj_eq] at hlen
            simp at hlen
            omega
          have hcont2 : ∀ c, ('}' :: rest).head? = some c → isDigitC c = false ∧ c ≠ ',' := by
            intro c hc
            simp only [List.head?_cons, Option.some.injEq] at hc
            subst hc
            exact ⟨by decide, by decide⟩
          rw [hd, parseVal.eq_def]
          simp [hhead, ihR ((k0, v0) :: t) ('}' :: rest) (by simp) hlen2 hcont2]
    · intro l rest hl hlen hcont
      obtain ⟨v0, t, rfl⟩ := List.exists_cons_of_ne_nil hl
      cases t with
      | nil =>
        have hlen2 : (jsonChars v0).length < f := by
          rw [arrChars_cons] at hlen
          simp at hlen
          omega
        have hnd1 : ∀ c, rest.head? = some c → isDigitC c = false :=
          fun c hc => (hcont c hc).1
        have hstep : arrChars [v0] ++ rest = jsonChars v0 ++ rest := by
          rw [arrChars_cons]
          simp [arrTail]
        have hnc : ¬(rest.head? = some ',') := by
          intro h
          cases rest with
          | nil => simp at h
          | cons r rs =>
            simp only [List.head?_cons, Option.some.injEq] at h
            exact (hcont r rfl).2 h
        rw [parseElems.eq_def, hstep]
        simp [ihP v0 rest hlen2 hnd1, hnc]
      | cons v1 t1 =>
        have hpos : 0 < (jsonChars v0).length := List.length_pos.mpr (jsonChars_ne_nil v0)
        have hlen2 : (jsonChars v0).length < f := by
          rw [arrChars_cons] at hlen
          simp at hlen
          omega
        have hlen3 : (arrChars (v1 :: t1)).length + 1 < f := by
          rw [arrChars_cons, arrTail_cons] at hlen
          rw [arrChars_cons]
          simp at hlen ⊢
          omega
        have hnd2 : ∀ c, (',' :: (arrChars (v1 :: t1) ++ rest)).head? = some c →
            isDigitC c = false := by
          intro c hc
          simp only [List.head?_cons, Option.some.injEq] at hc
          subst hc
          decide
        have hstep : arrChars (v0 :: v1 :: t1) ++ rest
            = jsonChars v0 ++ (',' :: (arrChars (v1 :: t1) ++ rest)) := by
          rw [arrChars_cons, arrTail_cons, arrChars_cons]
          simp
        rw [parseElems.eq_def, hstep]
        simp [ihP v0 (',' :: (arrChars (v1 :: t1) ++ rest)) hlen2 hnd2,
          ihQ (v1 :: t1) rest (by simp) hlen3 hcont]
    · intro l rest hl hlen hcont
      obtain ⟨f0, t, rfl⟩ := List.exists_cons_of_ne_nil hl
      obtain ⟨k0, v0⟩ := f0
      cases t with
      | nil =>
        have hlen2 : (jsonChars v0).length < f := by
          rw [objChars_cons, fieldChars_eq] at hlen
          simp at hlen
          omega
        have hnd1 : ∀ c, rest.head? = some c → isDigitC c = false :=
          fun c hc => (hcont c hc).1
        have hnc : ¬(rest.head? = some ',') := by
          intro h
          cases rest with
          | nil => simp at h
          | cons r rs =>
            simp only [List.head?_cons, Option.some.injEq] at h
            exact (hcont r rfl).2 h
        have hstep : objChars [(k0, v0)] ++ rest
            = '"' :: (escapeChars k0.data ++ '"' :: (':' :: (jsonChars v0 ++ rest))) := by
          rw [objChars_cons, fieldChars_eq]
          simp [objTail]
        rw [parseFields.eq_def, hstep]
        simp [parseStrBody_escape k0.data (':' :: (jsonChars v0 ++ rest)),
          ihP v0 rest hlen2 hnd1, hnc]
      | cons f1 t1 =>
        obtain ⟨k1, v1⟩ := f1
        have hposk : 0 < (jsonChars v0).length := List.length_pos.mpr (jsonChars_ne_nil v0)
        have hlen2 : (jsonChars v0).length < f := by
          rw [objChars_cons, fieldChars_eq] at hlen
          simp at hlen
          omega
        have hlen3 : (objChars ((k1, v1) :: t1)).length + 1 < f := by
          rw [objChars_cons, objTail_cons] at hlen
          rw [objChars_cons]
          simp at hlen ⊢
          omega
        have hnd2 : ∀ c, (',' :: (objChars ((k1, v1) :: t1) ++ rest)).head? = some c →
            isDigitC c = false := by
          intro c hc
          simp only [List.head?_cons, Option.some.injEq] at hc
          subst hc
          decide
        have hstep : objChars ((k0, v0) :: (k1, v1) :: t1) ++ rest
            = '"' :: (escapeChars k0.data ++ '"' :: (':' :: (jsonChars v0
                ++ (',' :: (objChars ((k1, v1) :: t1) ++ rest))))) := by
          rw [objChars_cons, fieldChars_eq, objTail_cons, objChars_cons]
          simp
        rw [parseFields.eq_def, hstep]
        simp [parseStrBody_escape k0.data
            (':' :: (jsonChars v0 ++ (',' :: (objChars ((k1, v1) :: t1) ++ rest)))),
          ihP v0 (',' :: (objChars ((k1, v1) :: t1) ++ rest)) hlen2 hnd2,
          ihR ((k1, v1) :: t1) rest (by simp) hlen3 hcont]

theorem parseJson_stringify (v : JsonValue) : parseJson (stringifyJson v) = some v := by
  obtain ⟨c0, cs0, hc0, _, _, hws⟩ := jsonChars_head v
  have hdw : (jsonChars v).dropWhile isWsC = jsonChars v := by
    rw [hc0]
    simp [List.dropWhile_cons, hws]
  show (match parseVal ((jsonChars v).length + 1) ((jsonChars v).dropWhile isWsC) with
    | some (v', rest) => if rest.dropWhile isWsC = [] then some v' else none
    | none => none) = some v
  rw [hdw]
  have hp := (parse_stringify_rt ((jsonChars v).length + 1)).1 v [] (by omega)
    (by intro c hc; simp at hc)
  rw [List.append_nil] at hp
  rw [hp]
  simp

theorem stringifyJson_ne_empty (v : JsonValue) : stringifyJson v ≠ "" := by
  intro h
  exact jsonChars_ne_nil v (by simpa using congrArg String.data h)

theorem splitCharList_no_sep (sep : Char) (cs : List Char) (h : sep ∉ cs) :
    splitCharList sep cs = [cs] := by
  induction cs with
  | nil => rfl
  | cons c t ih =>
    simp only [List.mem_cons, not_or] at h
    have hcs : ¬ c = sep := fun he => h.1 he.symm
    simp only [splitCharList]
    rw [ih h.2, if_neg hcs]

theorem splitCharList_append_sep (sep : Char) (p rest : List Char) (hp : sep ∉ p) :
    splitCharList sep (p ++ sep :: rest) = p :: splitCharList sep rest := by
  induction p with
  | nil => simp [splitCharList]
  | cons c t ih =>
    simp only [List.mem_cons, not_or] at hp
    have hcs : ¬ c = sep := fun he => hp.1 he.symm
    simp only [List.cons_append, splitCharList, List.append_eq]
    rw [ih hp.2, if_neg hcs]

theorem intercalate_cons₂ {α : Type} (sep : List α) (p q : List α) (t : List (List α)) :
    List.intercalate sep (p :: q :: t) = p ++ sep ++ List.intercalate sep (q :: t) := by
  simp [List.intercalate, List.intersperse]

theorem splitCharList_intercalate (sep : Char) :
    ∀ (parts : List (List Char)), parts ≠ [] → (∀ p ∈ parts, sep ∉ p) →
      splitCharList sep (List.intercalate [sep] parts) = parts
  | [], h, _ => absurd rfl h
  | [p], _, h => by
    simp only [List.intercalate, List.intersperse, List.flatten]
    rw [List.append_nil]
    exact splitCharList_no_sep sep p (h p (by simp))
  | p :: q :: t, _, h => by
    rw [intercalate_cons₂]
    rw [List.append_assoc, List.singleton_append]
    rw [splitCharList_append_sep sep p _ (h p (by simp))]
    rw [splitCharList_intercalate sep (q :: t) (by simp) (fun x hx => h x (by simp [hx]))]

theorem splitComma_joinComma (l : List String) (hl : l ≠ []) (h : ∀ x ∈ l, ',' ∉ x.data) :
    splitComma (joinComma l) = l := by
  show (splitCharList ',' (List.intercalate [','] (l.map (·.data)))).map (fun cs => (⟨cs⟩ : String)) = l
  rw [splitCharList_intercalate ',' (l.map (·.data)) (by simp [hl])
    (by
      intro p hp
      simp only [List.mem_map] at hp
      obtain ⟨x, hx, rfl⟩ := hp
      exact h x hx)]
  rw [List.map_map]
  have : ((fun cs => (⟨cs⟩ : String)) ∘ fun s => s.data) = id := by
    funext x
    rfl
  rw [this, List.map_id]

theorem joinComma_ne_empty (l : List String) (hl : l ≠ []) (hne : l ≠ [""]) :
    joinComma l ≠ "" := by
  intro h
  have hd := congrArg String.data h
  cases l with
  | nil => exact hl rfl
  | cons x t =>
    cases t with
    | nil =>
      apply hne
      simp only [joinComma, List.map_cons, List.map_nil] at hd
      simp only [List.intercalate, List.intersperse, List.flatten, List.append_nil] at hd
      have : x = "" := strExt (by simpa using hd)
      rw [this]
    | cons y t' =>
      simp only [joinComma, List.map_cons] at hd
      rw [show List.map (·.data) t' = t'.map (·.data) from rfl] at hd
      rw [show (x.data :: y.data :: t'.map (·.data)) = x.data :: y.data :: t'.map (·.data) from rfl] at hd
      rw [intercalate_cons₂] at hd
      simp at hd

theorem map_map_id {α β : Type} (v : List α) (f : α → β) (g : β → α)
    (h : ∀ x ∈ v, g (f x) = x) : (v.map f).map g = v := by
  induction v with
  | nil => rfl
  | cons x t ih =>
    simp only [List.map_cons, List.cons.injEq]
    exact ⟨h x (by simp), ih (fun y hy => h y (by simp [hy]))⟩

theorem parseOrRaw_encodeFieldStr (val : JsonValue)
    (h : ∀ s, val = .str s → parseJson s = none) :
    parseOrRaw (encodeFieldStr val) = val := by
  cases val
  case str s => simp [encodeFieldStr, parseOrRaw, h s rfl]
  all_goals simp [encodeFieldStr, parseOrRaw, parseJson_stringify]

theorem flat_decode_encode (v : JObj) (hnd : (v.map Prod.fst).Nodup)
    (hstr : ∀ kv ∈ v, ∀ s, kv.2 = .str s → parseJson s = none) :
    flatCodec.decode (flatCodec.encode v) = v := by
  show (v.map (fun kv => (kv.1, encodeFieldStr kv.2))).foldl
      (fun out kv => objSet out kv.1 (parseOrRaw kv.2)) [] = v
  have hkeys : ((v.map (fun kv => (kv.1, encodeFieldStr kv.2))).map Prod.fst).Nodup := by
    rw [List.map_map]
    exact hnd
  rw [foldl_objSet_map (fun kv => parseOrRaw kv.2) _ [] hkeys (by simp)]
  simp only [List.nil_append]
  apply map_map_id
  intro kv hkv
  simp only
  rw [parseOrRaw_encodeFieldStr kv.2 (hstr kv hkv)]

theorem strStartsWith_append (pre k : String) : strStartsWith (pre ++ k) pre = true := by
  simp [strStartsWith, String.data_append, List.isPrefixOf_iff_prefix, List.prefix_append]

theorem strDropLen_append (pre k : String) : strDropLen (pre ++ k) pre.length = k := by
  apply strExt
  show (pre ++ k).data.drop pre.length = k.data
  rw [String.data_append]
  exact List.drop_left pre.data k.data

theorem foldl_prefixStep_map (pre : String) :
    ∀ (v : JObj) (acc : JObj),
      (v.map Prod.fst).Nodup →
      (∀ p ∈ acc, ∀ q ∈ v, p.1 ≠ q.1) →
      (v.map (fun kv => (pre ++ kv.1, encodeFieldStr kv.2))).foldl
          (fun out kv =>
            if strStartsWith kv.1 pre then
              objSet out (strDropLen kv.1 pre.length) (parseOrRaw kv.2)
            else out) acc
        = acc ++ v.map (fun kv => (kv.1, parseOrRaw (encodeFieldStr kv.2)))
  | [], acc, _, _ => by simp
  | (k, val) :: t, acc, hnd, hdisj => by
    simp only [List.map_cons, List.nodup_cons] at hnd
    simp only [List.map_cons, List.foldl_cons, strStartsWith_append, eq_self_iff_true,
      if_true, strDropLen_append]
    have hstep : objSet acc k (parseOrRaw (encodeFieldStr val))
        = acc ++ [(k, parseOrRaw (encodeFieldStr val))] :=
      objSet_of_not_mem acc k _ (fun p hp => hdisj p hp (k, val) (by simp))
    rw [hstep]
    have hrec := foldl_prefixStep_map pre t (acc ++ [(k, parseOrRaw (encodeFieldStr val))]) hnd.2
      (by
        intro p hp q hq
        rcases List.mem_append.1 hp with hp1 | hp2
        · exact hdisj p hp1 q (by simp [hq])
        · simp only [List.mem_singleton] at hp2
          subst hp2
          intro hq1
          simp only at hq1
          exact hnd.1 (hq1 ▸ List.mem_map_of_mem Prod.fst hq))
    rw [hrec]
    simp

theorem prefix_decode_encode (ns separator : String) (v : JObj)
    (hnd : (v.map Prod.fst).Nodup)
    (hstr : ∀ kv ∈ v, ∀ s, kv.2 = .str s → parseJson s = none) :
    (prefixCodec ns separator).decode ((prefixCodec ns separator).encode v) = v := by
  show (v.map (fun kv => (ns ++ separator ++ kv.1, encodeFieldStr kv.2))).foldl
      (fun out kv =>
        if strStartsWith kv.1 (ns ++ separator) then
          objSet out (strDropLen kv.1 (ns ++ separator).length) (parseOrRaw kv.2)
        else out) [] = v
  rw [foldl_prefixStep_map (ns ++ separator) v [] hnd (by simp)]
  simp only [List.nil_append]
  have := map_map_id v (fun kv => (kv.1, encodeFieldStr kv.2))
    (fun kv => (kv.1, parseOrRaw kv.2))
    (fun kv hkv => by
      simp only
      rw [parseOrRaw_encodeFieldStr kv.2 (hstr kv hkv)])
  rw [List.map_map] at this
  calc List.map (fun kv => ((kv : String × JsonValue).1, parseOrRaw (encodeFieldStr kv.2))) v
      = v := this

/-- C2 (amended): decode-after-encode is the identity for the string codec
on all strings, the boolean codec on all booleans, the number codec on all
integers, the string-array codec on arrays other than the singleton empty
string whose elements are comma-free, the whole-object JSON codec on
well-formed JSON values, and the flattened and namespaced codecs on objects
with distinct keys whose string fields do not themselves parse as JSON;
the excluded cases genuinely fail (see the counterexample). -/
theorem codec_roundtrips :
    (∀ (key s : String), (stringCodec key).decode ((stringCodec key).encode s) = s) ∧
    (∀ (key : String) (b : Bool),
      (booleanCodec key).decode ((booleanCodec key).encode b) = b) ∧
    (∀ (key : String) (i : Int),
      (numberCodec key).decode ((numberCodec key).encode i) = i) ∧
    (∀ (key : String) (l : List String), l ≠ [""] → (∀ x ∈ l, ',' ∉ x.data) →
      (stringArrayCodec key).decode ((stringArrayCodec key).encode l) = l) ∧
    (∀ (key : String) (v : JsonValue), wfJson v = true →
      (jsonCodec key).decode ((jsonCodec key).encode v) = v) ∧
    (∀ v : JObj, (v.map Prod.fst).Nodup →
      (∀ kv ∈ v, ∀ s, kv.2 = .str s → parseJson s = none) →
      flatCodec.decode (flatCodec.encode v) = v) ∧
    (∀ (ns separator : String) (v : JObj), (v.map Prod.fst).Nodup →
      (∀ kv ∈ v, ∀ s, kv.2 = .str s → parseJson s = none) →
      (prefixCodec ns separator).decode ((prefixCodec ns separator).encode v) = v) := by
  refine ⟨?_, ?_, ?_, ?_, ?_, ?_, ?_⟩
  · intro key s
    show (if (List.lookup key [(key, s)]).getD "" = ""
        then "" else (List.lookup key [(key, s)]).getD "") = s
    rw [lookup_self]
    by_cases hs : s = "" <;> simp [hs]
  · intro key b
    cases b <;>
      · show ((List.lookup key [(key, _)]).getD "" == "true") = _
        rw [lookup_self]
        rfl
  · intro key i
    show (jsNumber ((List.lookup key [(key, intStr i)]).getD "")).getD 0 = i
    rw [lookup_self]
    simp [jsNumber_intStr]
  · intro key l hne hcf
    show (if (List.lookup key [(key, joinComma l)]).getD "" = "" then []
        else splitComma ((List.lookup key [(key, joinComma l)]).getD "")) = l
    rw [lookup_self]
    by_cases hl : l = []
    · subst hl
      rfl
    · simp only [Option.getD_some, if_neg (joinComma_ne_empty l hl hne)]
      exact splitComma_joinComma l hl hcf
  · intro key v _
    show (match List.lookup key [(key, stringifyJson v)] with
      | none => JsonValue.obj []
      | some raw => if raw = "" then .obj [] else (parseJson raw).getD (.obj [])) = v
    rw [lookup_self]
    simp [stringifyJson_ne_empty v, parseJson_stringify]
  · exact flat_decode_encode
  · exact prefix_decode_encode

/-- Counterexample to C2 as stated: the string-array codec does not
round-trip the singleton array containing the empty string — it encodes to
the empty parameter value, which decodes back to the empty array. -/
theorem codec_roundtrips_cex :
    (stringArrayCodec "value").decode ((stringArrayCodec "value").encode [""]) = [] ∧
    ([] : List String) ≠ [""] := by
  exact ⟨rfl, by decide⟩

/-- Witness for C2 at concrete values of every codec strategy. -/
theorem codec_roundtrips_witness :
    (stringCodec "value").decode ((stringCodec "value").encode "hello") = "hello" ∧
    (booleanCodec "value").decode ((booleanCodec "value").encode true) = true ∧
    (numberCodec "value").decode ((numberCodec "value").encode (-42)) = -42 ∧
    (stringArrayCodec "value").decode ((stringArrayCodec "value").encode ["a", "b"]) = ["a", "b"] ∧
    (jsonCodec "data").decode ((jsonCodec "data").encode
        (.obj [("name", .str "laptop"), ("count", .num 3), ("tags", .arr [.bool true, .null])]))
      = .obj [("name", .str "laptop"), ("count", .num 3), ("tags", .arr [.bool true, .null])] ∧
    flatCodec.decode (flatCodec.encode [("name", .str "laptop"), ("count", .num 3)])
      = [("name", .str "laptop"), ("count", .num 3)] ∧
    (prefixCodec "user" ".").decode ((prefixCodec "user" ".").encode
        [("name", .str "laptop"), ("count", .num 3)])
      = [("name", .str "laptop"), ("count", .num 3)] :=
  ⟨codec_roundtrips.1 "value" "hello",
   codec_roundtrips.2.1 "value" true,
   codec_roundtrips.2.2.1 "value" (-42),
   codec_roundtrips.2.2.2.1 "value" ["a", "b"] (by decide) (by decide),
   codec_roundtrips.2.2.2.2.1 "data" _ (by decide),
   codec_roundtrips.2.2.2.2.2.1 _ (by decide)
     (by
       intro kv hkv t ht
       simp only [List.mem_cons, List.not_mem_nil, or_false] at hkv
       rcases hkv with rfl | rfl
       · injection ht with h
         subst h
         rfl
       · simp at ht),
   codec_roundtrips.2.2.2.2.2.2 "user" "." _ (by decide)
     (by
       intro kv hkv t ht
       simp only [List.mem_cons, List.not_mem_nil, or_false] at hkv
       rcases hkv with rfl | rfl
       · injection ht with h
         subst h
         rfl
       · simp at ht)⟩

theorem foldl_prefixStep_skip (pre : String) :
    ∀ (data : List (String × String)) (acc : JObj),
      (∀ kv ∈ data, strStartsWith kv.1 pre = false) →
      data.foldl
          (fun out kv =>
            if strStartsWith kv.1 pre then
              objSet out (strDropLen kv.1 pre.length) (parseOrRaw kv.2)
            else out) acc
        = acc
  | [], _, _ => rfl
  | kv0 :: t, acc, h => by
    simp only [List.foldl_cons, h kv0 (by simp), Bool.false_eq_true, if_false]
    exact foldl_prefixStep_skip pre t acc (fun kv hkv => h kv (by simp [hkv]))

theorem prefixCodec_decode_eq (ns separator : String) (m : List (String × String)) :
    (prefixCodec ns separator).decode m
      = m.foldl
          (fun out kv =>
            if strStartsWith kv.1 (ns ++ separator) then
              objSet out (strDropLen kv.1 (ns ++ separator).length) (parseOrRaw kv.2)
            else out) [] := rfl

/-- C5 (amended): merging the encodings of two prefix codecs together with
extra entries and decoding with each codec yields exactly the result of
decoding its own encoding alone, provided no foreign or extra key starts
with that codec's own prefix (having merely distinct prefixes is not
enough: one prefix may extend the other — see the counterexample). -/
theorem prefixCodec_isolation (nsA sepA nsB sepB : String) (a b : JObj)
    (extras : List (String × String))
    (hB : ∀ kv ∈ (prefixCodec nsB sepB).encode b ++ extras,
      strStartsWith kv.1 (nsA ++ sepA) = false)
    (hA : ∀ kv ∈ (prefixCodec nsA sepA).encode a ++ extras,
      strStartsWith kv.1 (nsB ++ sepB) = false) :
    (prefixCodec nsA sepA).decode
        ((prefixCodec nsA sepA).encode a ++ (prefixCodec nsB sepB).encode b ++ extras)
      = (prefixCodec nsA sepA).decode ((prefixCodec nsA sepA).encode a) ∧
    (prefixCodec nsB sepB).decode
        ((prefixCodec nsA sepA).encode a ++ (prefixCodec nsB sepB).encode b ++ extras)
      = (prefixCodec nsB sepB).decode ((prefixCodec nsB sepB).encode b) := by
  constructor
  · rw [prefixCodec_decode_eq, prefixCodec_decode_eq, List.append_assoc, List.foldl_append]
    rw [foldl_prefixStep_skip (nsA ++ sepA) _ _ hB]
  · rw [prefixCodec_decode_eq, prefixCodec_decode_eq, List.append_assoc, List.foldl_append,
      List.foldl_append]
    rw [foldl_prefixStep_skip (nsB ++ sepB) _ []
      (fun kv hkv => hA kv (List.mem_append_left extras hkv))]
    rw [foldl_prefixStep_skip (nsB ++ sepB) extras _
      (fun kv hkv => hA kv (List.mem_append_right _ hkv))]

/-- Counterexample to C5 as stated: the prefixes `a.` and `a.b.` are
different, yet decoding the merged map with the `a` codec picks up the
`a.b.`-prefixed foreign entry as a field `b.y`. -/
theorem prefixCodec_isolation_cex :
    (prefixCodec "a" ".").decode
        ((prefixCodec "a" ".").encode [("x", .str "hello")]
          ++ (prefixCodec "a.b" ".").encode [("y", .str "w")])
      = [("x", .str "hello"), ("b.y", .str "w")] ∧
    (prefixCodec "a" ".").decode ((prefixCodec "a" ".").encode [("x", .str "hello")])
      = [("x", .str "hello")] ∧
    (prefixCodec "a" ".").decode
        ((prefixCodec "a" ".").encode [("x", .str "hello")]
          ++ (prefixCodec "a.b" ".").encode [("y", .str "w")])
      ≠ (prefixCodec "a" ".").decode ((prefixCodec "a" ".").encode [("x", .str "hello")]) := by
  refine ⟨rfl, rfl, ?_⟩
  intro h
  exact absurd (congrArg List.length h) (by decide)

/-- Witness for C5 at concrete namespaces, objects, and extras. -/
theorem prefixCodec_isolation_witness :
    (prefixCodec "user" ".").decode
        ((prefixCodec "user" ".").encode [("x", .str "1")]
          ++ (prefixCodec "app" ".").encode [("y", .str "2")] ++ [("loose", "z")])
      = (prefixCodec "user" ".").decode ((prefixCodec "user" ".").encode [("x", .str "1")]) ∧
    (prefixCodec "app" ".").decode
        ((prefixCodec "user" ".").encode [("x", .str "1")]
          ++ (prefixCodec "app" ".").encode [("y", .str "2")] ++ [("loose", "z")])
      = (prefixCodec "app" ".").decode ((prefixCodec "app" ".").encode [("y", .str "2")]) :=
  prefixCodec_isolation "user" "." "app" "." [("x", .str "1")] [("y", .str "2")]
    [("loose", "z")] (by decide) (by decide)
